import Mathlib

/-!
Verification of the graph-analytics core of the projeto-grafos repository.

The scripts build a directed weighted graph with `networkx` (`nx.DiGraph`),
compute centrality metrics, detect communities and reduce the graph.  Here the
graph is embedded shallowly: nodes are kept in insertion order and there is at
most one weighted edge per ordered pair, matching `DiGraph.add_edge` semantics
(inserting an existing ordered pair overwrites the stored weight).
-/

namespace ProjetoGrafos

/-- Directed weighted graph as used by the scripts (`nx.DiGraph`):
node list in insertion order, association list from ordered pair to weight. -/
structure DiGraph where
  nodes : List String
  edges : List ((String × String) × Int)
  deriving Repr, DecidableEq

def DiGraph.emptyGraph : DiGraph := ⟨[], []⟩

def DiGraph.nodeCount (g : DiGraph) : Nat := g.nodes.length

def DiGraph.edgeCount (g : DiGraph) : Nat := g.edges.length

/-- Adding a node: `nx` keeps the first insertion and ignores re-insertions. -/
def addNode (g : DiGraph) (n : String) : DiGraph :=
  if n ∈ g.nodes then g else { g with nodes := g.nodes ++ [n] }

/-- Whether the ordered pair `(u, v)` already has an edge. -/
def hasEdgeKey (g : DiGraph) (u v : String) : Bool :=
  g.edges.any (fun e => e.1 == (u, v))

/-- `grafo.add_edge(u, v, weight=w)`: creates missing endpoints, then either
overwrites the weight of the existing `(u, v)` edge or appends a new edge. -/
def add_edge (g : DiGraph) (u v : String) (w : Int) : DiGraph :=
  let g1 := addNode (addNode g u) v
  if hasEdgeKey g1 u v then
    { g1 with edges := g1.edges.map (fun e => if e.1 == (u, v) then ((u, v), w) else e) }
  else
    { g1 with edges := g1.edges ++ [((u, v), w)] }

/-- Total degree of a node, as `DiGraph.degree`: out-degree plus in-degree. -/
def degree (g : DiGraph) (n : String) : Nat :=
  (g.edges.filter (fun e => e.1.1 == n)).length +
    (g.edges.filter (fun e => e.1.2 == n)).length

/-- Well-formedness invariants maintained by `nx.DiGraph`: nodes are distinct,
each ordered pair has at most one edge, and edge endpoints are nodes. -/
def WF (g : DiGraph) : Prop :=
  g.nodes.Nodup ∧ (g.edges.map (·.1)).Nodup ∧
    ∀ e ∈ g.edges, e.1.1 ∈ g.nodes ∧ e.1.2 ∈ g.nodes

theorem addNode_edges (g : DiGraph) (n : String) : (addNode g n).edges = g.edges := by
  unfold addNode; split <;> rfl

theorem addNode_mem (g : DiGraph) (n : String) : n ∈ (addNode g n).nodes := by
  unfold addNode; split
  · assumption
  · simp

theorem mem_addNode (g : DiGraph) (n m : String) (h : m ∈ g.nodes) :
    m ∈ (addNode g n).nodes := by
  unfold addNode; split
  · exact h
  · simp [h]

theorem addNode_nodup (g : DiGraph) (n : String) (h : g.nodes.Nodup) :
    (addNode g n).nodes.Nodup := by
  unfold addNode; split
  · exact h
  · simpa [List.nodup_append] using ⟨h, by assumption⟩

theorem hasEdgeKey_of_key_mem (g : DiGraph) (u v : String)
    (h : (u, v) ∈ g.edges.map (·.1)) : hasEdgeKey g u v = true := by
  obtain ⟨e, he, heq⟩ := List.mem_map.mp h
  simp only [hasEdgeKey, List.any_eq_true, beq_iff_eq]
  exact ⟨e, he, heq⟩

theorem add_edge_wf (g : DiGraph) (u v : String) (w : Int) (hwf : WF g) :
    WF (add_edge g u v w) := by
  obtain ⟨hn, hk, he⟩ := hwf
  simp only [add_edge]
  have hn1 : (addNode (addNode g u) v).nodes.Nodup :=
    addNode_nodup _ _ (addNode_nodup _ _ hn)
  have hedges : (addNode (addNode g u) v).edges = g.edges := by
    rw [addNode_edges, addNode_edges]
  have humem : u ∈ (addNode (addNode g u) v).nodes :=
    mem_addNode _ _ _ (addNode_mem g u)
  have hvmem : v ∈ (addNode (addNode g u) v).nodes := addNode_mem _ v
  have hmem : ∀ m ∈ g.nodes, m ∈ (addNode (addNode g u) v).nodes := by
    intro m hm
    exact mem_addNode _ _ _ (mem_addNode _ _ _ hm)
  split
  · refine ⟨hn1, ?_, ?_⟩
    · rw [hedges]
      have : (g.edges.map (fun e => if e.1 == (u, v) then ((u, v), w) else e)).map (·.1)
          = g.edges.map (·.1) := by
        rw [List.map_map]
        apply List.map_congr_left
        intro e _
        by_cases hcase : e.1 = (u, v) <;> simp [hcase]
      rw [this]; exact hk
    · intro e hmem'
      rw [hedges] at hmem'
      obtain ⟨e0, he0, heq⟩ := List.mem_map.mp hmem'
      by_cases hcase : e0.1 = (u, v)
      · simp [hcase] at heq
        subst heq
        exact ⟨humem, hvmem⟩
      · simp [hcase] at heq
        subst heq
        exact ⟨hmem _ (he _ he0).1, hmem _ (he _ he0).2⟩
  · refine ⟨hn1, ?_, ?_⟩
    · rw [hedges, List.map_append, List.nodup_append]
      refine ⟨hk, by simp, ?_⟩
      intro a ha hb
      simp only [List.map_cons, List.map_nil, List.mem_singleton] at hb
      subst hb
      rename_i hkey
      apply hkey
      apply hasEdgeKey_of_key_mem
      rw [hedges]
      exact ha
    · intro e hmem'
      rw [hedges] at hmem'
      rcases List.mem_append.mp hmem' with h1 | h1
      · exact ⟨hmem _ (he _ h1).1, hmem _ (he _ h1).2⟩
      · simp at h1
        subst h1
        exact ⟨humem, hvmem⟩

theorem hasEdgeKey_addNode (g : DiGraph) (n u v : String) :
    hasEdgeKey (addNode g n) u v = hasEdgeKey g u v := by
  simp only [hasEdgeKey, addNode_edges]

theorem length_filter_key_le_one {α β : Type} [BEq α] [LawfulBEq α] (key : β → α) (a : α) :
    ∀ (l : List β), (l.map key).Nodup → (l.filter (fun e => key e == a)).length ≤ 1 := by
  intro l
  induction l with
  | nil => simp
  | cons x xs ih =>
    intro h
    simp only [List.map_cons, List.nodup_cons] at h
    by_cases hx : key x = a
    · have hnil : xs.filter (fun e => key e == a) = [] := by
        rw [List.filter_eq_nil_iff]
        intro e he hc
        apply h.1
        refine List.mem_map.mpr ⟨e, he, ?_⟩
        rw [beq_iff_eq] at hc
        rw [hc, hx]
      simp [List.filter_cons, hx, hnil]
    · simp only [List.filter_cons, beq_iff_eq, hx]
      simpa using ih h.2

theorem filter_add_edge_key (g : DiGraph) (u v : String) (w : Int)
    (hk : (g.edges.map (·.1)).Nodup) :
    (add_edge g u v w).edges.filter (fun e => e.1 == (u, v)) = [((u, v), w)] := by
  have hedges : (addNode (addNode g u) v).edges = g.edges := by
    rw [addNode_edges, addNode_edges]
  simp only [add_edge]
  split
  · rename_i hkey
    dsimp only
    rw [hedges]
    rw [hasEdgeKey_addNode, hasEdgeKey_addNode] at hkey
    rw [List.filter_map]
    have hcomp : ∀ e ∈ g.edges,
        ((fun e => e.1 == (u, v)) ∘ fun e => if (e.1 == (u, v)) = true then ((u, v), w) else e) e
          = (fun e => e.1 == (u, v)) e := by
      intro e _
      by_cases hc : e.1 = (u, v) <;> simp [hc]
    rw [List.filter_congr hcomp]
    have hlen : (g.edges.filter (fun e => e.1 == (u, v))).length = 1 := by
      have hle : (g.edges.filter (fun e => e.1 == (u, v))).length ≤ 1 :=
        length_filter_key_le_one (·.1) (u, v) g.edges hk
      have hpos : 0 < (g.edges.filter (fun e => e.1 == (u, v))).length := by
        simp only [hasEdgeKey, List.any_eq_true] at hkey
        obtain ⟨e, he, heq⟩ := hkey
        exact List.length_pos_of_mem (List.mem_filter.mpr ⟨he, heq⟩)
      omega
    obtain ⟨e0, he0⟩ := List.length_eq_one.mp hlen
    rw [he0]
    have hkey0 : e0.1 = (u, v) := by
      have hm : e0 ∈ g.edges.filter (fun e => e.1 == (u, v)) := by rw [he0]; simp
      exact beq_iff_eq.mp (List.mem_filter.mp hm).2
    simp [hkey0]
  · rename_i hkey
    dsimp only
    rw [hedges]
    rw [hasEdgeKey_addNode, hasEdgeKey_addNode] at hkey
    rw [List.filter_append]
    have h1 : g.edges.filter (fun e => e.1 == (u, v)) = [] := by
      rw [List.filter_eq_nil_iff]
      intro e he hc
      apply hkey
      simp only [hasEdgeKey, List.any_eq_true]
      exact ⟨e, he, hc⟩
    rw [h1]
    simp

theorem hasEdgeKey_add_edge_self (g : DiGraph) (u v : String) (w : Int) :
    hasEdgeKey (add_edge g u v w) u v = true := by
  have hedges : (addNode (addNode g u) v).edges = g.edges := by
    rw [addNode_edges, addNode_edges]
  simp only [add_edge, hasEdgeKey]
  split
  · rename_i hkey
    dsimp only
    rw [hedges]
    rw [hedges] at hkey
    simp only [List.any_eq_true] at hkey
    obtain ⟨e, he, heq⟩ := hkey
    simp only [List.any_eq_true]
    refine ⟨((u, v), w), ?_, by simp⟩
    exact List.mem_map.mpr ⟨e, he, by simp [heq]⟩
  · dsimp only
    simp

theorem add_edge_edgeCount_of_key (g : DiGraph) (u v : String) (w : Int)
    (h : hasEdgeKey g u v = true) :
    (add_edge g u v w).edgeCount = g.edgeCount := by
  have hedges : (addNode (addNode g u) v).edges = g.edges := by
    rw [addNode_edges, addNode_edges]
  simp only [add_edge, DiGraph.edgeCount]
  split
  · dsimp only
    simp [hedges]
  · rename_i hkey
    rw [hasEdgeKey_addNode, hasEdgeKey_addNode] at hkey
    exact absurd h hkey

/-- C1: inserting an edge for an ordered pair that already exists overwrites the
weight (last write wins): after `add_edge A B 2` then `add_edge A B 5`, exactly
one `A -> B` edge exists, its weight is `5`, and `edgeCount` is unchanged by
the second insert. -/
theorem add_edge_overwrites_weight (g : DiGraph) (u v : String) (w1 w2 : Int) (hwf : WF g) :
    ((add_edge (add_edge g u v w1) u v w2).edges.filter (fun e => e.1 == (u, v))).length = 1 ∧
    (∀ e ∈ (add_edge (add_edge g u v w1) u v w2).edges, e.1 = (u, v) → e.2 = w2) ∧
    (add_edge (add_edge g u v w1) u v w2).edgeCount = (add_edge g u v w1).edgeCount := by
  have hwf1 := add_edge_wf g u v w1 hwf
  have hchar := filter_add_edge_key (add_edge g u v w1) u v w2 hwf1.2.1
  refine ⟨by rw [hchar]; rfl, ?_, ?_⟩
  · intro e hmem hkey
    have hf : e ∈ (add_edge (add_edge g u v w1) u v w2).edges.filter (fun e => e.1 == (u, v)) :=
      List.mem_filter.mpr ⟨hmem, by simp [hkey]⟩
    rw [hchar] at hf
    simp only [List.mem_singleton] at hf
    rw [hf]
  · exact add_edge_edgeCount_of_key _ u v w2 (hasEdgeKey_add_edge_self g u v w1)

theorem add_edge_overwrites_weight_witness :
    ((add_edge (add_edge DiGraph.emptyGraph "A" "B" 2) "A" "B" 5).edges.filter
        (fun e => e.1 == ("A", "B"))).length = 1 ∧
    (∀ e ∈ (add_edge (add_edge DiGraph.emptyGraph "A" "B" 2) "A" "B" 5).edges,
        e.1 = ("A", "B") → e.2 = 5) ∧
    (add_edge (add_edge DiGraph.emptyGraph "A" "B" 2) "A" "B" 5).edgeCount
      = (add_edge DiGraph.emptyGraph "A" "B" 2).edgeCount :=
  add_edge_overwrites_weight DiGraph.emptyGraph "A" "B" 2 5
    ⟨by decide, by decide, by decide⟩

/-! ### Ingestion (`carregar_grafo`) -/

/-- Model of Python `int(token)` on a whitespace-free token: an optional sign
followed by one or more decimal digits. -/
def pyParseInt (s : String) : Option Int :=
  let digitsVal (t : List Char) : Option Int :=
    if !t.isEmpty && t.all (·.isDigit) then
      some (t.foldl (fun acc c => acc * 10 + ((c.toNat - '0'.toNat : Nat) : Int)) 0)
    else none
  match s.toList with
  | '-' :: rest => (digitsVal rest).map (fun n => -n)
  | '+' :: rest => digitsVal rest
  | cs => digitsVal cs

/-- Ingestion state: the graph under construction, the count of processed
interactions, and the count of rejected (warned-about) lines. -/
structure LoadState where
  g : DiGraph
  interacoes_processadas : Nat
  linhas_rejeitadas : Nat
  deriving Repr, DecidableEq

/-- Body of the ingestion loop of `carregar_grafo`: a line is split into
tokens (`partes`); 3+ tokens parse the third as an integer weight (a parse
failure rejects just that line), exactly 2 tokens use weight 1, fewer than 2
tokens reject the line; processing always continues. -/
def processar_linha (st : LoadState) (partes : List String) : LoadState :=
  if 3 ≤ partes.length then
    match pyParseInt (partes.getD 2 "") with
    | some peso =>
        { st with g := add_edge st.g (partes.getD 0 "") (partes.getD 1 "") peso,
                  interacoes_processadas := st.interacoes_processadas + 1 }
    | none => { st with linhas_rejeitadas := st.linhas_rejeitadas + 1 }
  else if partes.length = 2 then
    { st with g := add_edge st.g (partes.getD 0 "") (partes.getD 1 "") 1,
              interacoes_processadas := st.interacoes_processadas + 1 }
  else
    { st with linhas_rejeitadas := st.linhas_rejeitadas + 1 }

/-- `carregar_grafo` over an already-split record sequence. -/
def carregar_grafo (records : List (List String)) : LoadState :=
  records.foldl processar_linha ⟨DiGraph.emptyGraph, 0, 0⟩

/-- C5: records are processed independently: fewer than 2 tokens is rejected
and counted, exactly 2 tokens inserts an edge with default weight 1, 3+ tokens
inserts an edge with the parsed integer third token, a non-integer third token
rejects just that record, and ingestion continues with the remaining records
after any record. -/
theorem carregar_grafo_per_record (st : LoadState) (partes : List String)
    (pre rest : List (List String)) :
    (partes.length < 2 →
      processar_linha st partes = { st with linhas_rejeitadas := st.linhas_rejeitadas + 1 }) ∧
    (partes.length = 2 →
      processar_linha st partes =
        { st with g := add_edge st.g (partes.getD 0 "") (partes.getD 1 "") 1,
                  interacoes_processadas := st.interacoes_processadas + 1 }) ∧
    (∀ peso : Int, 3 ≤ partes.length → pyParseInt (partes.getD 2 "") = some peso →
      processar_linha st partes =
        { st with g := add_edge st.g (partes.getD 0 "") (partes.getD 1 "") peso,
                  interacoes_processadas := st.interacoes_processadas + 1 }) ∧
    (3 ≤ partes.length → pyParseInt (partes.getD 2 "") = none →
      processar_linha st partes = { st with linhas_rejeitadas := st.linhas_rejeitadas + 1 }) ∧
    carregar_grafo (pre ++ partes :: rest) =
      rest.foldl processar_linha (processar_linha (carregar_grafo pre) partes) := by
  refine ⟨?_, ?_, ?_, ?_, ?_⟩
  · intro h
    unfold processar_linha
    rw [if_neg (by omega), if_neg (by omega)]
  · intro h
    unfold processar_linha
    rw [if_neg (by omega), if_pos h]
  · intro peso h hp
    unfold processar_linha
    rw [if_pos h, hp]
  · intro h hp
    unfold processar_linha
    rw [if_pos h, hp]
  · simp [carregar_grafo, List.foldl_append]

theorem carregar_grafo_per_record_witness :
    processar_linha ⟨DiGraph.emptyGraph, 0, 0⟩ ["A"] =
      { g := DiGraph.emptyGraph, interacoes_processadas := 0, linhas_rejeitadas := 1 } ∧
    processar_linha ⟨DiGraph.emptyGraph, 0, 0⟩ ["A", "B"] =
      { g := add_edge DiGraph.emptyGraph "A" "B" 1,
        interacoes_processadas := 1, linhas_rejeitadas := 0 } ∧
    processar_linha ⟨DiGraph.emptyGraph, 0, 0⟩ ["A", "B", "7"] =
      { g := add_edge DiGraph.emptyGraph "A" "B" 7,
        interacoes_processadas := 1, linhas_rejeitadas := 0 } ∧
    processar_linha ⟨DiGraph.emptyGraph, 0, 0⟩ ["A", "B", "x"] =
      { g := DiGraph.emptyGraph, interacoes_processadas := 0, linhas_rejeitadas := 1 } :=
  ⟨(carregar_grafo_per_record ⟨DiGraph.emptyGraph, 0, 0⟩ ["A"] [] []).1 (by decide),
   (carregar_grafo_per_record ⟨DiGraph.emptyGraph, 0, 0⟩ ["A", "B"] [] []).2.1 (by decide),
   (carregar_grafo_per_record ⟨DiGraph.emptyGraph, 0, 0⟩ ["A", "B", "7"] [] []).2.2.1 7
     (by decide) (by decide),
   (carregar_grafo_per_record ⟨DiGraph.emptyGraph, 0, 0⟩ ["A", "B", "x"] [] []).2.2.2.1
     (by decide) (by decide)⟩

/-! ### No isolated nodes in a built graph (C10) -/

/-- The node is an endpoint of at least one retained edge. -/
def touchesNode (g : DiGraph) (n : String) : Prop :=
  ∃ e ∈ g.edges, e.1.1 = n ∨ e.1.2 = n

theorem mem_addNode_iff (g : DiGraph) (n m : String) :
    m ∈ (addNode g n).nodes ↔ m ∈ g.nodes ∨ m = n := by
  unfold addNode
  split
  · rename_i h
    constructor
    · exact Or.inl
    · rintro (hm | rfl)
      · exact hm
      · exact h
  · simp

theorem add_edge_key_preserved (g : DiGraph) (u v : String) (w : Int) :
    ∀ e ∈ g.edges, ∃ e2 ∈ (add_edge g u v w).edges, e2.1 = e.1 := by
  intro e he
  have hedges : (addNode (addNode g u) v).edges = g.edges := by
    rw [addNode_edges, addNode_edges]
  simp only [add_edge]
  split
  · dsimp only
    rw [hedges]
    by_cases hc : e.1 = (u, v)
    · exact ⟨((u, v), w), List.mem_map.mpr ⟨e, he, by simp [hc]⟩, by rw [hc]⟩
    · exact ⟨e, List.mem_map.mpr ⟨e, he, by simp [hc]⟩, rfl⟩
  · dsimp only
    rw [hedges]
    exact ⟨e, List.mem_append_left _ he, rfl⟩

theorem add_edge_self_key (g : DiGraph) (u v : String) (w : Int) :
    ∃ e ∈ (add_edge g u v w).edges, e.1 = (u, v) := by
  have h := hasEdgeKey_add_edge_self g u v w
  simp only [hasEdgeKey, List.any_eq_true, beq_iff_eq] at h
  exact h

theorem mem_add_edge_nodes (g : DiGraph) (u v : String) (w : Int) (n : String)
    (hn : n ∈ (add_edge g u v w).nodes) : n ∈ g.nodes ∨ n = u ∨ n = v := by
  have : (add_edge g u v w).nodes = (addNode (addNode g u) v).nodes := by
    simp only [add_edge]
    split <;> rfl
  rw [this, mem_addNode_iff, mem_addNode_iff] at hn
  tauto

theorem touches_add_edge (g : DiGraph) (u v : String) (w : Int)
    (h : ∀ n ∈ g.nodes, touchesNode g n) :
    ∀ n ∈ (add_edge g u v w).nodes, touchesNode (add_edge g u v w) n := by
  intro n hn
  rcases mem_add_edge_nodes g u v w n hn with hg | rfl | rfl
  · obtain ⟨e, he, hcase⟩ := h n hg
    obtain ⟨e2, he2, hkey⟩ := add_edge_key_preserved g u v w e he
    refine ⟨e2, he2, ?_⟩
    rw [hkey]
    exact hcase
  · obtain ⟨e, he, hkey⟩ := add_edge_self_key g n v w
    exact ⟨e, he, Or.inl (by rw [hkey])⟩
  · obtain ⟨e, he, hkey⟩ := add_edge_self_key g u n w
    exact ⟨e, he, Or.inr (by rw [hkey])⟩

theorem processar_linha_touches (st : LoadState) (partes : List String)
    (h : ∀ n ∈ st.g.nodes, touchesNode st.g n) :
    ∀ n ∈ (processar_linha st partes).g.nodes, touchesNode (processar_linha st partes).g n := by
  unfold processar_linha
  split
  · split
    · exact touches_add_edge _ _ _ _ h
    · exact h
  · split
    · exact touches_add_edge _ _ _ _ h
    · exact h

theorem foldl_processar_touches (records : List (List String)) :
    ∀ st : LoadState, (∀ n ∈ st.g.nodes, touchesNode st.g n) →
      ∀ n ∈ (records.foldl processar_linha st).g.nodes,
        touchesNode (records.foldl processar_linha st).g n := by
  induction records with
  | nil => intro st h; simpa using h
  | cons r rs ih =>
    intro st h
    simp only [List.foldl_cons]
    exact ih _ (processar_linha_touches st r h)

theorem degree_pos_of_touches (g : DiGraph) (n : String) (h : touchesNode g n) :
    1 ≤ degree g n := by
  obtain ⟨e, he, hc⟩ := h
  unfold degree
  rcases hc with h1 | h1
  · have hm : e ∈ g.edges.filter (fun e => e.1.1 == n) :=
      List.mem_filter.mpr ⟨he, by simp [h1]⟩
    have := List.length_pos_of_mem hm
    omega
  · have hm : e ∈ g.edges.filter (fun e => e.1.2 == n) :=
      List.mem_filter.mpr ⟨he, by simp [h1]⟩
    have := List.length_pos_of_mem hm
    omega

/-- C10: nodes are created only as a side effect of inserting an edge, so every
node of a graph built by `carregar_grafo` has degree at least 1. -/
theorem carregar_grafo_no_isolated_nodes (records : List (List String)) :
    ∀ n ∈ (carregar_grafo records).g.nodes, 1 ≤ degree (carregar_grafo records).g n := by
  intro n hn
  apply degree_pos_of_touches
  apply foldl_processar_touches records ⟨DiGraph.emptyGraph, 0, 0⟩ ?_ n hn
  intro m hm
  simp [DiGraph.emptyGraph] at hm

theorem carregar_grafo_no_isolated_nodes_witness :
    "A" ∈ (carregar_grafo [["A", "B"]]).g.nodes ∧
    1 ≤ degree (carregar_grafo [["A", "B"]]).g "A" :=
  ⟨by decide, carregar_grafo_no_isolated_nodes [["A", "B"]] "A" (by decide)⟩

/-! ### Ranker composite score (C2) -/

/-- Per-node real-valued metric map (`dict` of node to score). -/
abbrev MetricMap := List (String × ℚ)

/-- Scoring step of `identificar_potenciais_espalhadores`: for each node, add
each metric value whose map contains the node and count it, then divide the
sum by the count (score 0 when the node is in no map). -/
def combined_score (pagerank degree_cent betweenness closeness : MetricMap)
    (node : String) : ℚ :=
  let s0 : ℚ := 0
  let c0 : Nat := 0
  let p1 := match List.lookup node pagerank with
    | some x => (s0 + x, c0 + 1)
    | none => (s0, c0)
  let p2 := match List.lookup node degree_cent with
    | some x => (p1.1 + x, p1.2 + 1)
    | none => p1
  let p3 := match List.lookup node betweenness with
    | some x => (p2.1 + x, p2.2 + 1)
    | none => p2
  let p4 := match List.lookup node closeness with
    | some x => (p3.1 + x, p3.2 + 1)
    | none => p3
  if 0 < p4.2 then p4.1 / (p4.2 : ℚ) else 0

/-- Modelled from the spec: the arithmetic mean of the metric values available
for the node across the supplied maps (a missing entry contributes to neither
numerator nor denominator; no available value yields 0). -/
def meanOfAvailable (maps : List MetricMap) (node : String) : ℚ :=
  let xs := maps.filterMap (fun m => List.lookup node m)
  if xs.isEmpty then 0 else xs.sum / (xs.length : ℚ)

/-- C2: the composite score is the arithmetic mean of exactly the metric values
whose map contains the node; a node in none of the maps scores 0; a node
present only in the degree-centrality map scores exactly its degree-centrality
value (not that value divided by 4). -/
theorem combined_score_is_mean_of_available
    (pagerank degree_cent betweenness closeness : MetricMap) (node : String) :
    combined_score pagerank degree_cent betweenness closeness node =
      meanOfAvailable [pagerank, degree_cent, betweenness, closeness] node ∧
    (List.lookup node pagerank = none → List.lookup node degree_cent = none →
      List.lookup node betweenness = none → List.lookup node closeness = none →
      combined_score pagerank degree_cent betweenness closeness node = 0) ∧
    (∀ x : ℚ, List.lookup node pagerank = none → List.lookup node degree_cent = some x →
      List.lookup node betweenness = none → List.lookup node closeness = none →
      combined_score pagerank degree_cent betweenness closeness node = x) := by
  have hmain : combined_score pagerank degree_cent betweenness closeness node =
      meanOfAvailable [pagerank, degree_cent, betweenness, closeness] node := by
    unfold combined_score meanOfAvailable
    cases h1 : List.lookup node pagerank <;>
      cases h2 : List.lookup node degree_cent <;>
        cases h3 : List.lookup node betweenness <;>
          cases h4 : List.lookup node closeness <;>
            simp [List.filterMap, h1, h2, h3, h4] <;> ring
  refine ⟨hmain, ?_, ?_⟩
  · intro h1 h2 h3 h4
    rw [hmain]
    unfold meanOfAvailable
    simp [List.filterMap, h1, h2, h3, h4]
  · intro x h1 h2 h3 h4
    rw [hmain]
    unfold meanOfAvailable
    simp [List.filterMap, h1, h2, h3, h4]

theorem combined_score_is_mean_of_available_witness :
    combined_score [] [("A", 3/5)] [] [] "A" = 3/5 ∧
    combined_score [] [("A", 3/5)] [] [] "B" = 0 :=
  ⟨(combined_score_is_mean_of_available [] [("A", 3/5)] [] [] "A").2.2 (3/5)
      (by rfl) (by rfl) (by rfl) (by rfl),
   (combined_score_is_mean_of_available [] [("A", 3/5)] [] [] "B").2.1
      (by rfl) (by rfl) (by rfl) (by rfl)⟩

/-! ### Degree-based graph reduction (`gerar_subgrafo_reduzido`) -/

/-- Python list slicing `lista[:k]` with a possibly negative bound `k`
(`lista[:-m]` drops the last `m` elements, clamped at the empty list). -/
def pySliceTake {α : Type} (l : List α) (k : Int) : List α :=
  if 0 ≤ k then l.take k.toNat else l.take (l.length - k.natAbs)

/-- `grafo_original.subgraph(nos_selecionados).copy()`: the induced subgraph,
keeping exactly the edges whose both endpoints are selected. -/
def induced_subgraph (g : DiGraph) (sel : List String) : DiGraph :=
  ⟨sel, g.edges.filter (fun e => sel.contains e.1.1 && sel.contains e.1.2)⟩

/-- `sorted(grafo_original.degree(), key=lambda item: item[1], reverse=True)`:
the (node, total degree) pairs sorted by degree descending; Python `sorted` is
stable, as is `List.mergeSort`, so ties keep first-seen order. -/
def nos_ordenados_por_grau (g : DiGraph) : List (String × Nat) :=
  (g.nodes.map (fun n => (n, degree g n))).mergeSort (fun a b => decide (b.2 ≤ a.2))

/-- `gerar_subgrafo_reduzido` with `metodo='grau'` (the `'aleatorio'` branch
draws from the global random sampler and is not modelled): an empty graph
returns a copy; a graph no larger than the effective target returns a copy;
otherwise nodes are sorted by total degree descending, the slice
`[:tamanho_efetivo]` is selected, and the induced subgraph is returned —
except that an empty selection falls back to returning a full copy. -/
def gerar_subgrafo_reduzido (g : DiGraph) (tamanho : Int) : DiGraph :=
  if g.nodes.length = 0 then g
  else
    let tamanho_efetivo : Int := min tamanho (g.nodes.length : Int)
    if (g.nodes.length : Int) ≤ tamanho_efetivo then g
    else
      let nos_selecionados :=
        pySliceTake ((nos_ordenados_por_grau g).map (·.1)) tamanho_efetivo
      if nos_selecionados.isEmpty then g
      else induced_subgraph g nos_selecionados

/-- C7 counterexample: `targetSize = 0` yields a full copy of a nonempty graph
and `targetSize = -1` yields a strictly reduced graph; neither call is
rejected as an error, contradicting the claim. -/
theorem gerar_subgrafo_reduzido_nonpositive_counterexample :
    gerar_subgrafo_reduzido ⟨["A", "B"], [(("A", "B"), 1)]⟩ 0
      = ⟨["A", "B"], [(("A", "B"), 1)]⟩ ∧
    (gerar_subgrafo_reduzido ⟨["A", "B", "C"],
        [(("A", "B"), 1), (("A", "C"), 1), (("B", "C"), 1)]⟩ (-1)).nodes
      = ["A", "B"] := by
  constructor
  · simp [gerar_subgrafo_reduzido, pySliceTake]
  · simp [gerar_subgrafo_reduzido, pySliceTake, induced_subgraph, nos_ordenados_por_grau,
      List.mergeSort, degree]

/-- C7 (amended): `gerar_subgrafo_reduzido` never rejects a zero or negative
target: an empty graph yields a full (empty) copy for any target; target 0
yields a full copy; a negative target `t` yields a full copy when the node
count is at most `-t`, and otherwise exactly the induced subgraph on the
first `nodeCount - |t|` nodes of the degree-descending order, i.e. all but
the `-t` lowest-degree-ranked nodes. -/
theorem gerar_subgrafo_reduzido_nonpositive (g : DiGraph) (t : Int) :
    (g.nodes = [] → gerar_subgrafo_reduzido g t = g) ∧
    (t = 0 → gerar_subgrafo_reduzido g t = g) ∧
    (t < 0 → (g.nodes.length : Int) ≤ -t → gerar_subgrafo_reduzido g t = g) ∧
    (t < 0 → -t < (g.nodes.length : Int) →
      gerar_subgrafo_reduzido g t =
        induced_subgraph g (((nos_ordenados_por_grau g).map (·.1)).take
          (g.nodes.length - t.natAbs))) := by
  refine ⟨?_, ?_, ?_, ?_⟩
  · intro h
    unfold gerar_subgrafo_reduzido
    rw [if_pos (by simp [h])]
  · rintro rfl
    unfold gerar_subgrafo_reduzido
    by_cases h0 : g.nodes.length = 0
    · rw [if_pos h0]
    · rw [if_neg h0]
      have hmin : min (0 : Int) (g.nodes.length : Int) = 0 := by
        apply min_eq_left
        exact_mod_cast Nat.zero_le _
      simp only [hmin]
      rw [if_neg (by omega)]
      rw [if_pos (by simp [pySliceTake])]
  · intro ht hlen
    unfold gerar_subgrafo_reduzido
    by_cases h0 : g.nodes.length = 0
    · rw [if_pos h0]
    · rw [if_neg h0]
      have hmin : min t (g.nodes.length : Int) = t := by
        apply min_eq_left
        omega
      simp only [hmin]
      rw [if_neg (by omega)]
      have hsel : pySliceTake ((nos_ordenados_por_grau g).map (·.1)) t = [] := by
        unfold pySliceTake
        rw [if_neg (by omega)]
        have hlen2 : ((nos_ordenados_por_grau g).map (·.1)).length = g.nodes.length := by
          simp [nos_ordenados_por_grau]
        rw [hlen2]
        have : g.nodes.length - t.natAbs = 0 := by omega
        rw [this, List.take_zero]
      rw [hsel]
      rw [if_pos (by simp)]
  · intro ht hlen
    unfold gerar_subgrafo_reduzido
    have h0 : ¬ g.nodes.length = 0 := by omega
    rw [if_neg h0]
    have hmin : min t (g.nodes.length : Int) = t := by
      apply min_eq_left
      omega
    simp only [hmin]
    rw [if_neg (by omega)]
    have hlen2 : ((nos_ordenados_por_grau g).map (·.1)).length = g.nodes.length := by
      simp [nos_ordenados_por_grau]
    have hsel : pySliceTake ((nos_ordenados_por_grau g).map (·.1)) t =
        ((nos_ordenados_por_grau g).map (·.1)).take (g.nodes.length - t.natAbs) := by
      unfold pySliceTake
      rw [if_neg (by omega), hlen2]
    rw [hsel]
    have hne : ((nos_ordenados_por_grau g).map (·.1)).take
          (g.nodes.length - t.natAbs) ≠ [] := by
      intro hc
      rw [List.take_eq_nil_iff] at hc
      rcases hc with hc | hc
      · omega
      · have hzero := congrArg List.length hc
        rw [hlen2] at hzero
        simp only [List.length_nil] at hzero
        omega
    rw [if_neg (by simpa [List.isEmpty_iff] using hne)]

theorem gerar_subgrafo_reduzido_nonpositive_witness :
    gerar_subgrafo_reduzido ⟨["A", "B"], [(("A", "B"), 1)]⟩ 0
      = ⟨["A", "B"], [(("A", "B"), 1)]⟩ ∧
    gerar_subgrafo_reduzido ⟨["A", "B", "C"],
        [(("A", "B"), 1), (("A", "C"), 1), (("B", "C"), 1)]⟩ (-1)
      = induced_subgraph ⟨["A", "B", "C"],
          [(("A", "B"), 1), (("A", "C"), 1), (("B", "C"), 1)]⟩
          (((nos_ordenados_por_grau ⟨["A", "B", "C"],
            [(("A", "B"), 1), (("A", "C"), 1), (("B", "C"), 1)]⟩).map (·.1)).take 2) :=
  ⟨(gerar_subgrafo_reduzido_nonpositive ⟨["A", "B"], [(("A", "B"), 1)]⟩ 0).2.1 rfl,
   (gerar_subgrafo_reduzido_nonpositive ⟨["A", "B", "C"],
      [(("A", "B"), 1), (("A", "C"), 1), (("B", "C"), 1)]⟩ (-1)).2.2.2
      (by decide) (by decide)⟩

theorem nos_ordenados_por_grau_sorted (g : DiGraph) :
    List.Sorted (fun a b : String × Nat => decide (b.2 ≤ a.2) = true)
      (nos_ordenados_por_grau g) := by
  exact List.sorted_mergeSort
    (fun a b c hab hbc => by
      simp only [decide_eq_true_eq] at *
      omega)
    (fun a b => by
      simp only [Bool.or_eq_true, decide_eq_true_eq]
      omega)
    (g.nodes.map (fun n => (n, degree g n)))

theorem mem_nos_ordenados_por_grau (g : DiGraph) (p : String × Nat)
    (hp : p ∈ nos_ordenados_por_grau g) : p.1 ∈ g.nodes ∧ p.2 = degree g p.1 := by
  unfold nos_ordenados_por_grau at hp
  rw [List.mem_mergeSort] at hp
  obtain ⟨n, hn, heq⟩ := List.mem_map.mp hp
  rw [← heq]
  exact ⟨hn, rfl⟩

/-- C4: for every well-formed graph and positive `k`, degree-based reduction
returns the induced subgraph on the `min k nodeCount` highest-degree nodes:
the node count is exactly `min k nodeCount`, every selected node's degree is
at least every non-selected node's degree, the edges are exactly the source
edges with both endpoints selected (weights unchanged), and a graph with at
most `k` nodes is returned as a full unchanged copy. -/
theorem gerar_subgrafo_reduzido_degree (g : DiGraph) (k : Int)
    (hwf : WF g) (hk : 0 < k) :
    ((gerar_subgrafo_reduzido g k).nodes.length = min k.toNat g.nodes.length) ∧
    (∀ u ∈ (gerar_subgrafo_reduzido g k).nodes, ∀ v ∈ g.nodes,
        v ∉ (gerar_subgrafo_reduzido g k).nodes → degree g v ≤ degree g u) ∧
    (∀ e, e ∈ (gerar_subgrafo_reduzido g k).edges ↔
        e ∈ g.edges ∧ e.1.1 ∈ (gerar_subgrafo_reduzido g k).nodes ∧
          e.1.2 ∈ (gerar_subgrafo_reduzido g k).nodes) ∧
    ((g.nodes.length : Int) ≤ k → gerar_subgrafo_reduzido g k = g) := by
  by_cases hbig : (g.nodes.length : Int) ≤ k
  · have hres : gerar_subgrafo_reduzido g k = g := by
      unfold gerar_subgrafo_reduzido
      by_cases h0 : g.nodes.length = 0
      · rw [if_pos h0]
      · rw [if_neg h0]
        have hmin : min k (g.nodes.length : Int) = (g.nodes.length : Int) :=
          min_eq_right hbig
        simp only [hmin]
        rw [if_pos le_rfl]
    refine ⟨?_, ?_, ?_, fun _ => hres⟩
    · rw [hres]
      exact (min_eq_right (by omega)).symm
    · intro u hu v hv hnv
      rw [hres] at hnv
      exact absurd hv hnv
    · intro e
      rw [hres]
      constructor
      · intro he
        exact ⟨he, (hwf.2.2 e he).1, (hwf.2.2 e he).2⟩
      · exact fun h => h.1
  · push_neg at hbig
    have h0 : ¬ g.nodes.length = 0 := by omega
    have hmin : min k (g.nodes.length : Int) = k := min_eq_left (le_of_lt hbig)
    have hklen : k.toNat < g.nodes.length := by omega
    have hlenfst : ((nos_ordenados_por_grau g).map (·.1)).length = g.nodes.length := by
      simp [nos_ordenados_por_grau]
    have hselval : pySliceTake ((nos_ordenados_por_grau g).map (·.1)) k =
        ((nos_ordenados_por_grau g).map (·.1)).take k.toNat := by
      unfold pySliceTake
      rw [if_pos (le_of_lt hk)]
    have hne : ((nos_ordenados_por_grau g).map (·.1)).take k.toNat ≠ [] := by
      intro hc
      rw [List.take_eq_nil_iff] at hc
      rcases hc with hc | hc
      · omega
      · have hzero := congrArg List.length hc
        rw [hlenfst] at hzero
        simp only [List.length_nil] at hzero
        omega
    have hres : gerar_subgrafo_reduzido g k =
        induced_subgraph g (((nos_ordenados_por_grau g).map (·.1)).take k.toNat) := by
      unfold gerar_subgrafo_reduzido
      rw [if_neg h0]
      simp only [hmin]
      rw [if_neg (by omega)]
      rw [hselval]
      rw [if_neg (by simpa [List.isEmpty_iff] using hne)]
    refine ⟨?_, ?_, ?_, fun hcon => absurd hcon (by omega)⟩
    · rw [hres]
      simp only [induced_subgraph]
      rw [List.length_take, hlenfst]
    · intro u hu v hv hnv
      rw [hres] at hu hnv
      simp only [induced_subgraph] at hu hnv
      rw [← List.map_take] at hu hnv
      obtain ⟨p, hp, hpu⟩ := List.mem_map.mp hu
      have hpchar := mem_nos_ordenados_por_grau g p (List.take_subset _ _ hp)
      have hqmem : (v, degree g v) ∈ nos_ordenados_por_grau g := by
        unfold nos_ordenados_por_grau
        rw [List.mem_mergeSort]
        exact List.mem_map.mpr ⟨v, hv, rfl⟩
      have hqnot : (v, degree g v) ∉ (nos_ordenados_por_grau g).take k.toNat := by
        intro hc
        exact hnv (List.mem_map.mpr ⟨(v, degree g v), hc, rfl⟩)
      have hqdrop : (v, degree g v) ∈ (nos_ordenados_por_grau g).drop k.toNat := by
        have hsplit : (v, degree g v) ∈ (nos_ordenados_por_grau g).take k.toNat ++
            (nos_ordenados_por_grau g).drop k.toNat := by
          rw [List.take_append_drop]
          exact hqmem
        rcases List.mem_append.mp hsplit with hc | hc
        · exact absurd hc hqnot
        · exact hc
      have hrel := (nos_ordenados_por_grau_sorted g).rel_of_mem_take_of_mem_drop hp hqdrop
      simp only [decide_eq_true_eq] at hrel
      calc degree g v ≤ p.2 := hrel
        _ = degree g u := by rw [hpchar.2, hpu]
    · intro e
      rw [hres]
      simp only [induced_subgraph, List.mem_filter, Bool.and_eq_true]
      constructor
      · rintro ⟨he, hc1, hc2⟩
        exact ⟨he, by simpa using hc1, by simpa using hc2⟩
      · rintro ⟨he, hc1, hc2⟩
        exact ⟨he, by simpa using hc1, by simpa using hc2⟩

theorem gerar_subgrafo_reduzido_degree_witness :
    ((gerar_subgrafo_reduzido ⟨["A", "B", "C"], [(("A", "B"), 1), (("A", "C"), 2)]⟩ 1).nodes.length
        = min (1 : Int).toNat (["A", "B", "C"] : List String).length) ∧
    (∀ u ∈ (gerar_subgrafo_reduzido ⟨["A", "B", "C"],
        [(("A", "B"), 1), (("A", "C"), 2)]⟩ 1).nodes,
      ∀ v ∈ (["A", "B", "C"] : List String),
        v ∉ (gerar_subgrafo_reduzido ⟨["A", "B", "C"],
            [(("A", "B"), 1), (("A", "C"), 2)]⟩ 1).nodes →
          degree ⟨["A", "B", "C"], [(("A", "B"), 1), (("A", "C"), 2)]⟩ v ≤
            degree ⟨["A", "B", "C"], [(("A", "B"), 1), (("A", "C"), 2)]⟩ u) ∧
    (∀ e, e ∈ (gerar_subgrafo_reduzido ⟨["A", "B", "C"],
        [(("A", "B"), 1), (("A", "C"), 2)]⟩ 1).edges ↔
        e ∈ ([(("A", "B"), 1), (("A", "C"), 2)] : List ((String × String) × Int)) ∧
          e.1.1 ∈ (gerar_subgrafo_reduzido ⟨["A", "B", "C"],
              [(("A", "B"), 1), (("A", "C"), 2)]⟩ 1).nodes ∧
          e.1.2 ∈ (gerar_subgrafo_reduzido ⟨["A", "B", "C"],
              [(("A", "B"), 1), (("A", "C"), 2)]⟩ 1).nodes) ∧
    (((["A", "B", "C"] : List String).length : Int) ≤ 1 →
      gerar_subgrafo_reduzido ⟨["A", "B", "C"], [(("A", "B"), 1), (("A", "C"), 2)]⟩ 1
        = ⟨["A", "B", "C"], [(("A", "B"), 1), (("A", "C"), 2)]⟩) :=
  gerar_subgrafo_reduzido_degree ⟨["A", "B", "C"], [(("A", "B"), 1), (("A", "C"), 2)]⟩ 1
    ⟨by decide, by decide, by decide⟩ (by decide)

/-! ### Metrics engine -/

/-- Out-neighbours of `u`, deduplicated. -/
def outNeighbors (g : DiGraph) (u : String) : List String :=
  (g.edges.filterMap (fun e => if e.1.1 == u then some e.1.2 else none)).dedup

/-- In-neighbours of `v`, deduplicated. -/
def inNeighbors (g : DiGraph) (v : String) : List String :=
  (g.edges.filterMap (fun e => if e.1.2 == v then some e.1.1 else none)).dedup

/-- Neighbours ignoring edge direction, deduplicated. -/
def undirNeighbors (g : DiGraph) (u : String) : List String :=
  (outNeighbors g u ++ inNeighbors g u).dedup

/-- Layered reachability closure with fuel, stopping when a layer adds no new
node. -/
def reachClosure (neighbors : String → List String) :
    Nat → List String → List String → List String
  | 0, visited, _ => visited
  | fuel + 1, visited, frontier =>
      let fresh := ((frontier.flatMap neighbors).dedup).filter (fun n => !visited.contains n)
      if fresh.isEmpty then visited
      else reachClosure neighbors fuel (visited ++ fresh) fresh

/-- `nx.is_weakly_connected(grafo)`: every node reachable from the first node
ignoring direction. On the empty graph the library raises and the caller's
`except` leaves closeness empty; `false` models that path. -/
def is_weakly_connected (g : DiGraph) : Bool :=
  match g.nodes with
  | [] => false
  | h :: _ =>
      let reach := reachClosure (undirNeighbors g) g.nodes.length [h] [h]
      g.nodes.all (fun n => reach.contains n)

/-- Modelled from the spec: degree centrality `degree(n) / (nodeCount - 1)`
for `nodeCount > 1`, an empty map otherwise (the repository calls the
library's `nx.degree_centrality`, whose code is not under `src/`). -/
def degree_centrality (g : DiGraph) : MetricMap :=
  if 1 < g.nodes.length then
    g.nodes.map (fun n => (n, (degree g n : ℚ) / ((g.nodes.length : ℚ) - 1)))
  else []

/-- Damping factor `alpha = 0.85` used by every `nx.pagerank` call. -/
def alphaPR : ℚ := 85 / 100

/-- Total outgoing edge weight of `u`. -/
def out_weight (g : DiGraph) (u : String) : ℚ :=
  ((g.edges.filter (fun e => e.1.1 == u)).map (fun e => (e.2 : ℚ))).sum

/-- A dangling node: no outgoing edges. -/
def dangling (g : DiGraph) (u : String) : Bool :=
  (g.edges.filter (fun e => e.1.1 == u)).isEmpty

/-- Total rank currently held by dangling nodes. -/
def dangling_sum (g : DiGraph) (r : String → ℚ) : ℚ :=
  ((g.nodes.filter (fun u => dangling g u)).map r).sum

/-- Modelled from the spec: one PageRank power-iteration step: teleport mass
`(1 - alpha)/n`, dangling mass redistributed uniformly, and each node's rank
distributed to its out-neighbours proportionally to edge weight. -/
def pagerank_step (g : DiGraph) (r : String → ℚ) (v : String) : ℚ :=
  (1 - alphaPR) / (g.nodes.length : ℚ) +
    alphaPR * (dangling_sum g r / (g.nodes.length : ℚ) +
      ((g.edges.filter (fun e => e.1.2 == v)).map
        (fun e => r e.1.1 * (e.2 : ℚ) / out_weight g e.1.1)).sum)

/-- L1 distance between successive rank vectors over the node set. -/
def l1_diff (g : DiGraph) (r r2 : String → ℚ) : ℚ :=
  (g.nodes.map (fun v => |r v - r2 v|)).sum

def pagerank_tol : ℚ := 1 / 1000000

/-- Iterate `pagerank_step` until the L1 change drops below the tolerance or
the fuel (maximum iteration count) runs out. -/
def pagerank_loop (g : DiGraph) : Nat → (String → ℚ) → (String → ℚ)
  | 0, r => r
  | fuel + 1, r =>
      let r2 := pagerank_step g r
      if l1_diff g r r2 < pagerank_tol then r2 else pagerank_loop g fuel r2

/-- Modelled from the spec: PageRank by power iteration, uniform `1/n`
initialisation, damping 0.85, at most 100 iterations (the repository calls
the library's `nx.pagerank`, whose code is not under `src/`). -/
def pagerank_map (g : DiGraph) : MetricMap :=
  g.nodes.map (fun v =>
    (v, pagerank_loop g 100 (fun _ => 1 / (g.nodes.length : ℚ)) v))

/-- Layered BFS distance map with fuel. -/
def bfsDistLoop (neighbors : String → List String) :
    Nat → List (String × Nat) → List String → Nat → List (String × Nat)
  | 0, dist, _, _ => dist
  | fuel + 1, dist, frontier, d =>
      let fresh := ((frontier.flatMap neighbors).dedup).filter
        (fun n => !(dist.any (fun p => p.1 == n)))
      if fresh.isEmpty then dist
      else bfsDistLoop neighbors fuel (dist ++ fresh.map (fun n => (n, d + 1))) fresh (d + 1)

/-- Hop-count distances from `s` along the given adjacency. -/
def bfsDist (neighbors : String → List String) (fuel : Nat) (s : String) :
    List (String × Nat) :=
  bfsDistLoop neighbors fuel [(s, 0)] [s] 0

/-- Modelled from the spec: closeness centrality of `u`, the reciprocal of the
average shortest-path distance to `u` from the nodes that can reach it, with
the Wasserman-Faust correction `(r - 1)/(n - 1)` (the repository calls the
library's `nx.closeness_centrality`, whose code is not under `src/`). -/
def closeness_centrality (g : DiGraph) : MetricMap :=
  g.nodes.map (fun u =>
    let dists := bfsDist (inNeighbors g) g.nodes.length u
    let r := dists.length
    let tot : ℚ := (dists.map (fun p => (p.2 : ℚ))).sum
    (u, if 1 < r ∧ 0 < tot then
          (((r : ℚ) - 1) / ((g.nodes.length : ℚ) - 1)) * (((r : ℚ) - 1) / tot)
        else 0))

/-- Layered BFS computing, per reached node, its hop distance and the number
of shortest paths from the source. -/
def sigmaLoop (neighbors : String → List String) :
    Nat → List (String × Nat × Nat) → List String → Nat → List (String × Nat × Nat)
  | 0, tab, _, _ => tab
  | fuel + 1, tab, frontier, d =>
      let fresh := ((frontier.flatMap neighbors).dedup).filter
        (fun n => !(tab.any (fun p => p.1 == n)))
      if fresh.isEmpty then tab
      else
        let newEntries := fresh.map (fun w =>
          (w, d + 1,
            (frontier.filter (fun u => (neighbors u).contains w)).foldl
              (fun acc u =>
                acc + (((tab.find? (fun p => p.1 == u)).map (fun p => p.2.2)).getD 0)) 0))
        sigmaLoop neighbors fuel (tab ++ newEntries) fresh (d + 1)

/-- Per-source shortest-path distance and count table. -/
def sigmaTable (g : DiGraph) (s : String) : List (String × Nat × Nat) :=
  sigmaLoop (outNeighbors g) g.nodes.length [(s, 0, 1)] [s] 0

/-- Distance and shortest-path count of `v` in a sigma table, if reached. -/
def distSigma (tab : List (String × Nat × Nat)) (v : String) : Option (Nat × Nat) :=
  (tab.find? (fun p => p.1 == v)).map (fun p => p.2)

/-- Modelled from the spec: betweenness centrality of `v`: over all ordered
pairs of distinct nodes `(s, t)` with `s ≠ v ≠ t`, the fraction of hop-count
shortest directed `s -> t` paths passing through `v` (the repository calls
the library's `nx.betweenness_centrality`, whose code is not under `src/`). -/
def betweenness_centrality (g : DiGraph) : MetricMap :=
  g.nodes.map (fun v =>
    (v, (g.nodes.map (fun s =>
          if s = v then 0 else
          match distSigma (sigmaTable g s) v with
          | none => 0
          | some (dsv, csv) =>
            (g.nodes.map (fun t =>
              if t = v ∨ t = s then 0 else
              match distSigma (sigmaTable g s) t, distSigma (sigmaTable g v) t with
              | some (dst, cst), some (dvt, cvt) =>
                  if dsv + dvt = dst then ((csv * cvt : Nat) : ℚ) / (cst : ℚ) else 0
              | _, _ => (0 : ℚ))).sum)).sum))

/-- The four per-node metric maps computed for spreader identification. -/
structure Metrics where
  pagerank : MetricMap
  degree_cent : MetricMap
  betweenness : MetricMap
  closeness : MetricMap
  deriving Repr, DecidableEq

/-- Metric-computation phase of `identificar_potenciais_espalhadores`:
pagerank and degree centrality always; betweenness only below the 2000-node
cap; closeness additionally only when the graph is weakly connected. -/
def espalhadores_metricas (g : DiGraph) : Metrics :=
  let pagerank := pagerank_map g
  let degree_cent := degree_centrality g
  if g.nodes.length < 2000 then
    { pagerank := pagerank, degree_cent := degree_cent,
      betweenness := betweenness_centrality g,
      closeness := if is_weakly_connected g then closeness_centrality g else [] }
  else
    { pagerank := pagerank, degree_cent := degree_cent,
      betweenness := [], closeness := [] }

theorem length_betweenness_centrality (g : DiGraph) :
    (betweenness_centrality g).length = g.nodes.length := by
  simp [betweenness_centrality]

theorem length_closeness_centrality (g : DiGraph) :
    (closeness_centrality g).length = g.nodes.length := by
  simp [closeness_centrality]

theorem undirNeighbors_of_no_edges (g : DiGraph) (he : g.edges = []) (u : String) :
    undirNeighbors g u = [] := by
  simp [undirNeighbors, outNeighbors, inNeighbors, he]

theorem is_weakly_connected_eq_false_of_no_edges (g : DiGraph) (he : g.edges = [])
    (a b : String) (rest : List String) (hn : g.nodes = a :: rest)
    (hb : b ∈ rest) (hba : b ≠ a) :
    is_weakly_connected g = false := by
  have hreach : reachClosure (undirNeighbors g) (a :: rest).length [a] [a] = [a] := by
    have hlen : (a :: rest).length = rest.length + 1 := by simp
    rw [hlen]
    simp only [reachClosure]
    simp [undirNeighbors_of_no_edges g he]
  unfold is_weakly_connected
  rw [hn]
  dsimp only
  rw [hreach]
  refine List.all_eq_false.mpr ⟨b, List.mem_cons_of_mem a hb, ?_⟩
  simp [hba]

/-- C3 counterexample: on a 2000-node graph with no edges (hence not weakly
connected) the closeness map is empty, but betweenness is also omitted (empty)
even though the betweenness computation would cover every node — so "the other
three metrics are still computed and returned" fails as stated. -/
theorem espalhadores_closeness_guard_counterexample :
    is_weakly_connected
      ⟨"A" :: "B" :: (List.range 1998).map (fun i => toString i), []⟩ = false ∧
    (espalhadores_metricas
      ⟨"A" :: "B" :: (List.range 1998).map (fun i => toString i), []⟩).closeness = [] ∧
    (espalhadores_metricas
      ⟨"A" :: "B" :: (List.range 1998).map (fun i => toString i), []⟩).betweenness = [] ∧
    betweenness_centrality
      ⟨"A" :: "B" :: (List.range 1998).map (fun i => toString i), []⟩ ≠ [] := by
  refine ⟨?_, ?_, ?_, ?_⟩
  · exact is_weakly_connected_eq_false_of_no_edges _ rfl "A" "B"
      ("B" :: (List.range 1998).map (fun i => toString i)) rfl
      (List.mem_cons_self _ _) (by decide)
  · simp only [espalhadores_metricas]
    rw [if_neg (by simp)]
  · simp only [espalhadores_metricas]
    rw [if_neg (by simp)]
  · intro hc
    have hzero := congrArg List.length hc
    rw [length_betweenness_centrality] at hzero
    simp at hzero

/-- C3 (amended): closeness is computed only when the graph is weakly
connected; on a non-weakly-connected graph the closeness map is entirely
omitted (empty, not zero-filled) while pagerank and degree centrality are
still computed and returned, and betweenness is likewise still computed and
returned whenever the graph is below the 2000-node cost cap. -/
theorem espalhadores_closeness_guard (g : DiGraph) :
    ((espalhadores_metricas g).closeness ≠ [] → is_weakly_connected g = true) ∧
    (is_weakly_connected g = false →
      (espalhadores_metricas g).closeness = [] ∧
      (espalhadores_metricas g).pagerank = pagerank_map g ∧
      (espalhadores_metricas g).degree_cent = degree_centrality g ∧
      (g.nodes.length < 2000 →
        (espalhadores_metricas g).betweenness = betweenness_centrality g)) := by
  simp only [espalhadores_metricas]
  by_cases hcap : g.nodes.length < 2000
  · rw [if_pos hcap]
    by_cases hconn : is_weakly_connected g = true
    · rw [if_pos hconn]
      refine ⟨fun _ => hconn, ?_⟩
      intro hfalse
      rw [hconn] at hfalse
      cases hfalse
    · rw [if_neg hconn]
      refine ⟨?_, ?_⟩
      · intro hne
        exact absurd rfl hne
      · intro _
        exact ⟨rfl, rfl, rfl, fun _ => rfl⟩
  · rw [if_neg hcap]
    refine ⟨?_, ?_⟩
    · intro hne
      exact absurd rfl hne
    · intro _
      exact ⟨rfl, rfl, rfl, fun h => absurd h hcap⟩

theorem espalhadores_closeness_guard_witness :
    (espalhadores_metricas ⟨["A", "B", "C", "D"],
        [(("A", "B"), 1), (("C", "D"), 1)]⟩).closeness = [] ∧
    (espalhadores_metricas ⟨["A", "B", "C", "D"], [(("A", "B"), 1), (("C", "D"), 1)]⟩).pagerank
      = pagerank_map ⟨["A", "B", "C", "D"], [(("A", "B"), 1), (("C", "D"), 1)]⟩ ∧
    (espalhadores_metricas ⟨["A", "B", "C", "D"],
        [(("A", "B"), 1), (("C", "D"), 1)]⟩).degree_cent
      = degree_centrality ⟨["A", "B", "C", "D"], [(("A", "B"), 1), (("C", "D"), 1)]⟩ ∧
    (espalhadores_metricas ⟨["A", "B", "C", "D"],
        [(("A", "B"), 1), (("C", "D"), 1)]⟩).betweenness
      = betweenness_centrality ⟨["A", "B", "C", "D"], [(("A", "B"), 1), (("C", "D"), 1)]⟩ := by
  have h := (espalhadores_closeness_guard
    ⟨["A", "B", "C", "D"], [(("A", "B"), 1), (("C", "D"), 1)]⟩).2 (by decide)
  exact ⟨h.1, h.2.1, h.2.2.1, h.2.2.2 (by decide)⟩

/-- C9 counterexample: a 4-node graph below the 2000-node cap that is not
weakly connected: its closeness map is omitted (empty) even though the graph
is below the cap, so "closeness is computed for graphs below the cap" fails. -/
theorem espalhadores_size_cap_counterexample :
    (⟨["A", "B", "C", "D"], [(("A", "B"), 1), (("C", "D"), 1)]⟩ : DiGraph).nodes.length < 2000 ∧
    (espalhadores_metricas ⟨["A", "B", "C", "D"],
        [(("A", "B"), 1), (("C", "D"), 1)]⟩).closeness = [] ∧
    closeness_centrality ⟨["A", "B", "C", "D"], [(("A", "B"), 1), (("C", "D"), 1)]⟩ ≠ [] := by
  refine ⟨by decide, ?_, ?_⟩
  · simp only [espalhadores_metricas]
    rw [if_pos (by decide), if_neg (by decide)]
  · intro hc
    have hzero := congrArg List.length hc
    rw [length_closeness_centrality] at hzero
    simp at hzero

/-- C9 (amended): betweenness and closeness are omitted (empty maps) for
graphs whose node count is at or above the 2000-node cap, the other metrics
unaffected; below the cap betweenness is computed, and closeness is computed
precisely when the graph is additionally weakly connected. -/
theorem espalhadores_size_cap (g : DiGraph) :
    (2000 ≤ g.nodes.length →
      (espalhadores_metricas g).betweenness = [] ∧
      (espalhadores_metricas g).closeness = [] ∧
      (espalhadores_metricas g).pagerank = pagerank_map g ∧
      (espalhadores_metricas g).degree_cent = degree_centrality g) ∧
    (g.nodes.length < 2000 →
      (espalhadores_metricas g).betweenness = betweenness_centrality g ∧
      (is_weakly_connected g = true →
        (espalhadores_metricas g).closeness = closeness_centrality g) ∧
      (is_weakly_connected g = false →
        (espalhadores_metricas g).closeness = [])) := by
  simp only [espalhadores_metricas]
  by_cases hcap : g.nodes.length < 2000
  · rw [if_pos hcap]
    refine ⟨fun h => absurd hcap (by omega), ?_⟩
    intro _
    refine ⟨rfl, ?_, ?_⟩
    · intro hconn
      rw [if_pos hconn]
    · intro hconn
      rw [if_neg (by rw [hconn]; exact Bool.false_ne_true)]
  · rw [if_neg hcap]
    refine ⟨fun _ => ⟨rfl, rfl, rfl, rfl⟩, fun h => absurd h hcap⟩

theorem espalhadores_size_cap_witness :
    (espalhadores_metricas ⟨["A", "B", "C"],
        [(("A", "B"), 1), (("B", "C"), 1), (("C", "A"), 1)]⟩).betweenness
      = betweenness_centrality ⟨["A", "B", "C"],
          [(("A", "B"), 1), (("B", "C"), 1), (("C", "A"), 1)]⟩ ∧
    (espalhadores_metricas ⟨["A", "B", "C"],
        [(("A", "B"), 1), (("B", "C"), 1), (("C", "A"), 1)]⟩).closeness
      = closeness_centrality ⟨["A", "B", "C"],
          [(("A", "B"), 1), (("B", "C"), 1), (("C", "A"), 1)]⟩ := by
  have h := (espalhadores_size_cap
    ⟨["A", "B", "C"], [(("A", "B"), 1), (("B", "C"), 1), (("C", "A"), 1)]⟩).2 (by decide)
  exact ⟨h.1, h.2.1 (by decide)⟩

/-! ### PageRank mass conservation (C6) -/

theorem sum_map_ite_eq_zero {ns : List String} {x : String} (hx : x ∉ ns) (c : ℚ) :
    (ns.map (fun v => if x = v then c else 0)).sum = 0 := by
  induction ns with
  | nil => simp
  | cons a t ih =>
    have hxa : x ≠ a := fun h => hx (h ▸ List.mem_cons_self a t)
    have hxt : x ∉ t := fun h => hx (List.mem_cons_of_mem a h)
    simp [hxa, ih hxt]

theorem sum_map_ite_eq {ns : List String} (hnd : ns.Nodup) {x : String} (hx : x ∈ ns)
    (c : ℚ) : (ns.map (fun v => if x = v then c else 0)).sum = c := by
  induction ns with
  | nil => cases hx
  | cons a t ih =>
    rw [List.nodup_cons] at hnd
    by_cases hxa : x = a
    · subst hxa
      simp [sum_map_ite_eq_zero hnd.1 c]
    · have hxt : x ∈ t := by
        rcases List.mem_cons.mp hx with h | h
        · exact absurd h hxa
        · exact h
      simp [hxa, ih hnd.2 hxt]

theorem sum_sum_filter_key {β : Type} (ns : List String) (es : List β)
    (key : β → String) (f : β → ℚ) (hnd : ns.Nodup) (hmem : ∀ e ∈ es, key e ∈ ns) :
    (ns.map (fun v => ((es.filter (fun e => key e == v)).map f).sum)).sum
      = (es.map f).sum := by
  induction es with
  | nil => simp
  | cons a es ih =>
    have hstep : ∀ v ∈ ns, (((a :: es).filter (fun e => key e == v)).map f).sum
        = (if key a = v then f a else 0)
          + ((es.filter (fun e => key e == v)).map f).sum := by
      intro v _
      by_cases hv : key a = v
      · simp [List.filter_cons, hv]
      · simp [List.filter_cons, hv]
    calc (ns.map fun v => (((a :: es).filter (fun e => key e == v)).map f).sum).sum
        = (ns.map fun v => (if key a = v then f a else 0)
            + ((es.filter (fun e => key e == v)).map f).sum).sum := by
          rw [List.map_congr_left hstep]
      _ = (ns.map fun v => if key a = v then f a else 0).sum
            + (ns.map fun v => ((es.filter (fun e => key e == v)).map f).sum).sum :=
          List.sum_map_add
      _ = f a + (es.map f).sum := by
          rw [sum_map_ite_eq hnd (hmem a (List.mem_cons_self a es)) (f a),
            ih (fun e he => hmem e (List.mem_cons_of_mem a he))]
      _ = ((a :: es).map f).sum := by simp

theorem sum_map_const_q (ns : List String) (c : ℚ) :
    (ns.map (fun _ => c)).sum = (ns.length : ℚ) * c := by
  induction ns with
  | nil => simp
  | cons a t ih =>
    simp only [List.map_cons, List.sum_cons, ih, List.length_cons]
    push_cast
    ring

theorem sum_map_ite_not_p (ns : List String) (p : String → Bool) (r : String → ℚ) :
    (ns.map (fun u => if p u then 0 else r u)).sum
      = (ns.map r).sum - ((ns.filter p).map r).sum := by
  induction ns with
  | nil => simp
  | cons a t ih =>
    by_cases hp : p a
    · simp only [List.map_cons, List.sum_cons, List.filter_cons, hp, if_true, ih]
      ring
    · simp only [List.map_cons, List.sum_cons, List.filter_cons, hp, Bool.false_eq_true,
        if_false, ih]
      ring

theorem inner_sum_out (g : DiGraph) (r : String → ℚ) (u : String)
    (hpos : ∀ e ∈ g.edges, 0 < e.2) :
    ((g.edges.filter (fun e => e.1.1 == u)).map
        (fun e => r e.1.1 * (e.2 : ℚ) / out_weight g e.1.1)).sum
      = if dangling g u then 0 else r u := by
  by_cases hd : dangling g u = true
  · have hd2 : g.edges.filter (fun e => e.1.1 == u) = [] := by
      simpa [dangling, List.isEmpty_iff] using hd
    simp [hd, hd2]
  · have hne : g.edges.filter (fun e => e.1.1 == u) ≠ [] := by
      simpa [dangling, List.isEmpty_iff] using hd
    have hcong : (g.edges.filter (fun e => e.1.1 == u)).map
        (fun e => r e.1.1 * (e.2 : ℚ) / out_weight g e.1.1)
        = (g.edges.filter (fun e => e.1.1 == u)).map
          (fun e => (r u / out_weight g u) * (e.2 : ℚ)) := by
      apply List.map_congr_left
      intro e he
      have heu : e.1.1 = u := by simpa using (List.mem_filter.mp he).2
      rw [heu]
      ring
    have hwpos : 0 < out_weight g u := by
      unfold out_weight
      apply List.sum_pos
      · intro x hx
        obtain ⟨e, he, hxe⟩ := List.mem_map.mp hx
        rw [← hxe]
        exact_mod_cast hpos e (List.mem_filter.mp he).1
      · simpa using hne
    rw [hcong, List.sum_map_mul_left]
    have hw : ((g.edges.filter (fun e => e.1.1 == u)).map (fun e => (e.2 : ℚ))).sum
        = out_weight g u := rfl
    rw [hw, if_neg hd]
    exact div_mul_cancel₀ (r u) (ne_of_gt hwpos)

theorem sum_pagerank_step (g : DiGraph) (r : String → ℚ)
    (hwf : WF g) (hne : g.nodes ≠ []) (hpos : ∀ e ∈ g.edges, 0 < e.2) :
    (g.nodes.map (pagerank_step g r)).sum
      = (1 - alphaPR) + alphaPR * (g.nodes.map r).sum := by
  have hn0 : ((g.nodes.length : ℚ)) ≠ 0 := by
    have : g.nodes.length ≠ 0 := by
      simpa [List.length_eq_zero] using hne
    exact_mod_cast this
  have hexpand : g.nodes.map (pagerank_step g r)
      = g.nodes.map (fun v => ((1 - alphaPR) / (g.nodes.length : ℚ)
          + alphaPR * (dangling_sum g r / (g.nodes.length : ℚ)))
          + alphaPR * ((g.edges.filter (fun e => e.1.2 == v)).map
              (fun e => r e.1.1 * (e.2 : ℚ) / out_weight g e.1.1)).sum) := by
    apply List.map_congr_left
    intro v _
    unfold pagerank_step
    ring
  rw [hexpand, List.sum_map_add]
  have hconst : (g.nodes.map (fun _ => (1 - alphaPR) / (g.nodes.length : ℚ)
      + alphaPR * (dangling_sum g r / (g.nodes.length : ℚ)))).sum
      = (1 - alphaPR) + alphaPR * dangling_sum g r := by
    rw [sum_map_const_q]
    field_simp
  have hmid : (g.nodes.map (fun v =>
      alphaPR * ((g.edges.filter (fun e => e.1.2 == v)).map
        (fun e => r e.1.1 * (e.2 : ℚ) / out_weight g e.1.1)).sum)).sum
      = alphaPR * ((g.nodes.map r).sum - dangling_sum g r) := by
    rw [List.sum_map_mul_left]
    have hin : (g.nodes.map (fun v => ((g.edges.filter (fun e => e.1.2 == v)).map
        (fun e => r e.1.1 * (e.2 : ℚ) / out_weight g e.1.1)).sum)).sum
        = (g.edges.map (fun e => r e.1.1 * (e.2 : ℚ) / out_weight g e.1.1)).sum :=
      sum_sum_filter_key g.nodes g.edges (fun e => e.1.2) _ hwf.1
        (fun e he => (hwf.2.2 e he).2)
    have hout : (g.edges.map (fun e => r e.1.1 * (e.2 : ℚ) / out_weight g e.1.1)).sum
        = (g.nodes.map (fun u => ((g.edges.filter (fun e => e.1.1 == u)).map
            (fun e => r e.1.1 * (e.2 : ℚ) / out_weight g e.1.1)).sum)).sum :=
      (sum_sum_filter_key g.nodes g.edges (fun e => e.1.1) _ hwf.1
        (fun e he => (hwf.2.2 e he).1)).symm
    have hper : (g.nodes.map (fun u => ((g.edges.filter (fun e => e.1.1 == u)).map
        (fun e => r e.1.1 * (e.2 : ℚ) / out_weight g e.1.1)).sum)).sum
        = (g.nodes.map (fun u => if dangling g u then 0 else r u)).sum := by
      rw [List.map_congr_left (fun u _ => inner_sum_out g r u hpos)]
    rw [hin, hout, hper, sum_map_ite_not_p]
    rfl
  rw [hconst, hmid]
  ring

theorem sum_pagerank_loop (g : DiGraph) (hwf : WF g) (hne : g.nodes ≠ [])
    (hpos : ∀ e ∈ g.edges, 0 < e.2) :
    ∀ (fuel : Nat) (r : String → ℚ), (g.nodes.map r).sum = 1 →
      (g.nodes.map (pagerank_loop g fuel r)).sum = 1 := by
  intro fuel
  induction fuel with
  | zero =>
    intro r h
    simpa [pagerank_loop] using h
  | succ n ih =>
    intro r h
    have hstep : (g.nodes.map (pagerank_step g r)).sum = 1 := by
      rw [sum_pagerank_step g r hwf hne hpos, h]
      unfold alphaPR
      norm_num
    simp only [pagerank_loop]
    split
    · exact hstep
    · exact ih _ hstep

/-- C6: on every nonempty well-formed graph with positive edge weights,
including graphs with dangling nodes, the PageRank map assigns a value to
every node and the values sum exactly to 1 (so in particular within any
tolerance). -/
theorem pagerank_map_sum_one (g : DiGraph) (hwf : WF g) (hne : g.nodes ≠ [])
    (hpos : ∀ e ∈ g.edges, 0 < e.2) :
    ((pagerank_map g).map (·.1)) = g.nodes ∧
    ((pagerank_map g).map (·.2)).sum = 1 := by
  constructor
  · unfold pagerank_map
    rw [List.map_map]
    exact List.map_id' g.nodes
  · unfold pagerank_map
    rw [List.map_map]
    have hcomp : ((fun p : String × ℚ => p.2) ∘ fun v =>
        (v, pagerank_loop g 100 (fun _ => 1 / (g.nodes.length : ℚ)) v))
        = pagerank_loop g 100 (fun _ => 1 / (g.nodes.length : ℚ)) := rfl
    rw [hcomp]
    apply sum_pagerank_loop g hwf hne hpos
    rw [sum_map_const_q]
    have hn0 : ((g.nodes.length : ℚ)) ≠ 0 := by
      have : g.nodes.length ≠ 0 := by
        simpa [List.length_eq_zero] using hne
      exact_mod_cast this
    field_simp

theorem pagerank_map_sum_one_witness :
    ((pagerank_map ⟨["A", "B", "C"], [(("A", "B"), 1), (("A", "C"), 2)]⟩).map (·.1))
      = ["A", "B", "C"] ∧
    ((pagerank_map ⟨["A", "B", "C"], [(("A", "B"), 1), (("A", "C"), 2)]⟩).map (·.2)).sum
      = 1 :=
  pagerank_map_sum_one ⟨["A", "B", "C"], [(("A", "B"), 1), (("A", "C"), 2)]⟩
    ⟨by decide, by decide, by decide⟩ (by decide) (by decide)

/-! ### Community detection (`detectar_comunidades`) -/

/-- Whether some edge connects `a` and `b`, direction ignored. -/
def hasUndirEdge (g : DiGraph) (a b : String) : Bool :=
  g.edges.any (fun e => (e.1.1 == a && e.1.2 == b) || (e.1.1 == b && e.1.2 == a))

/-- Unweighted degree of `a` in the undirected projection. -/
def undirDegree (g : DiGraph) (a : String) : Nat :=
  (g.nodes.filter (fun b => hasUndirEdge g a b)).length

/-- Number of undirected edges between two disjoint communities. -/
def eBetween (g : DiGraph) (c1 c2 : List String) : Nat :=
  (c1.map (fun a => (c2.filter (fun b => hasUndirEdge g a b)).length)).sum

/-- Sum of undirected degrees inside a community. -/
def degSum (g : DiGraph) (c : List String) : Nat :=
  (c.map (fun a => undirDegree g a)).sum

/-- Modelled from the spec: modularity gain of merging two communities,
`e12 / m - d1 * d2 / (2 m^2)` with `m` the undirected edge count. -/
def deltaQ (g : DiGraph) (c1 c2 : List String) : ℚ :=
  let m : ℚ := ((g.nodes.map (fun a => (undirDegree g a : ℚ))).sum) / 2
  (eBetween g c1 c2 : ℚ) / m - (degSum g c1 : ℚ) * (degSum g c2 : ℚ) / (2 * m ^ 2)

/-- Each element paired with the remaining elements, their order kept. -/
def splits {α : Type} : List α → List (α × List α)
  | [] => []
  | a :: l => (a, l) :: (splits l).map (fun p => (p.1, a :: p.2))

/-- Candidate merges: ordered community pairs connected by at least one edge,
each together with the untouched communities. -/
def mergeCandidates (g : DiGraph) (cs : List (List String)) :
    List (List String × List String × List (List String)) :=
  ((splits cs).flatMap (fun p => (splits p.2).map (fun q => (p.1, q.1, q.2)))).filter
    (fun c => c.1.any (fun a => c.2.1.any (fun b => hasUndirEdge g a b)))

/-- Pick the candidate with maximal modularity gain; ties keep the earliest
(lowest community-index) pair. -/
def pickBest (g : DiGraph)
    (x : List String × List String × List (List String))
    (l : List (List String × List String × List (List String))) :
    List String × List String × List (List String) :=
  l.foldl (fun best c => if deltaQ g best.1 best.2.1 < deltaQ g c.1 c.2.1 then c else best) x

/-- Modelled from the spec: one round of Clauset-Newman-Moore greedy
modularity: merge the connected pair with the largest positive gain, else
stop. -/
def cnmLoop (g : DiGraph) : Nat → List (List String) → List (List String)
  | 0, cs => cs
  | fuel + 1, cs =>
      match mergeCandidates g cs with
      | [] => cs
      | x :: l =>
          let best := pickBest g x l
          if 0 < deltaQ g best.1 best.2.1 then
            cnmLoop g fuel ((best.1 ++ best.2.1) :: best.2.2)
          else cs

/-- Modelled from the spec: greedy modularity communities, starting from
singleton communities (the repository calls the library's
`greedy_modularity_communities`, whose code is not under `src/`). -/
def greedy_modularity_communities (g : DiGraph) : List (List String) :=
  cnmLoop g g.nodes.length (g.nodes.map (fun n => [n]))

/-- `detectar_comunidades`: the empty graph short-circuits to `[]`; otherwise
the communities of the undirected projection, sorted by size descending. -/
def detectar_comunidades (g : DiGraph) : List (List String) :=
  if g.nodes.isEmpty then []
  else (greedy_modularity_communities g).mergeSort (fun a b => decide (b.length ≤ a.length))

theorem perm_of_mem_splits {α : Type} :
    ∀ {l : List α} {p : α × List α}, p ∈ splits l → List.Perm l (p.1 :: p.2) := by
  intro l
  induction l with
  | nil =>
    intro p hp
    simp [splits] at hp
  | cons a t ih =>
    intro p hp
    rw [splits] at hp
    rcases List.mem_cons.mp hp with h | h
    · rw [h]
    · obtain ⟨q, hq, heq⟩ := List.mem_map.mp h
      rw [← heq]
      dsimp only
      exact List.Perm.trans ((ih hq).cons a) (List.Perm.swap q.1 a q.2)

theorem pickBest_mem (g : DiGraph)
    (x : List String × List String × List (List String))
    (l : List (List String × List String × List (List String))) :
    pickBest g x l ∈ x :: l := by
  unfold pickBest
  induction l generalizing x with
  | nil => simp
  | cons y ys ih =>
    simp only [List.foldl_cons]
    have h := ih (if deltaQ g x.1 x.2.1 < deltaQ g y.1 y.2.1 then y else x)
    rcases List.mem_cons.mp h with h1 | h1
    · by_cases hc : deltaQ g x.1 x.2.1 < deltaQ g y.1 y.2.1
      · rw [if_pos hc] at h1 ⊢
        rw [h1]
        simp
      · rw [if_neg hc] at h1 ⊢
        rw [h1]
        simp
    · exact List.mem_cons_of_mem x (List.mem_cons_of_mem y h1)

theorem perm_of_mem_mergeCandidates (g : DiGraph) (cs : List (List String))
    (c : List String × List String × List (List String))
    (hc : c ∈ mergeCandidates g cs) : List.Perm cs (c.1 :: c.2.1 :: c.2.2) := by
  unfold mergeCandidates at hc
  have hc1 := (List.mem_filter.mp hc).1
  obtain ⟨p, hp, hmem⟩ := List.mem_flatMap.mp hc1
  obtain ⟨q, hq, heq⟩ := List.mem_map.mp hmem
  rw [← heq]
  dsimp only
  exact List.Perm.trans (perm_of_mem_splits hp) ((perm_of_mem_splits hq).cons p.1)

theorem cnmLoop_flatten_perm (g : DiGraph) :
    ∀ (fuel : Nat) (cs : List (List String)),
      List.Perm (cnmLoop g fuel cs).flatten cs.flatten := by
  intro fuel
  induction fuel with
  | zero =>
    intro cs
    exact List.Perm.refl _
  | succ n ih =>
    intro cs
    cases hm : mergeCandidates g cs with
    | nil =>
      simp only [cnmLoop, hm]
      exact List.Perm.refl _
    | cons x l =>
      simp only [cnmLoop, hm]
      split
      · refine (ih _).trans ?_
        have hb : pickBest g x l ∈ x :: l := pickBest_mem g x l
        have hperm := perm_of_mem_mergeCandidates g cs (pickBest g x l)
          (by rw [hm]; exact hb)
        have hflat := hperm.flatten
        have hequal : ((pickBest g x l).1 :: (pickBest g x l).2.1 ::
            (pickBest g x l).2.2).flatten
            = (((pickBest g x l).1 ++ (pickBest g x l).2.1) ::
                (pickBest g x l).2.2).flatten := by
          simp [List.flatten_cons, List.append_assoc]
        rw [hequal] at hflat
        exact hflat.symm
      · exact List.Perm.refl _

theorem flatten_singletons (ns : List String) :
    (ns.map (fun n => [n])).flatten = ns := by
  induction ns with
  | nil => rfl
  | cons a t ih => simp [ih]

theorem pairwise_of_all {α : Type} (R : α → α → Prop) (h : ∀ a b, R a b) :
    ∀ l : List α, l.Pairwise R := by
  intro l
  induction l with
  | nil => exact List.Pairwise.nil
  | cons a t ih => exact List.Pairwise.cons (fun b _ => h a b) ih

/-- C8: the communities returned by `detectar_comunidades` partition the node
set of the undirected projection (whose node set equals the graph's): their
concatenation is a permutation of the nodes (each node in exactly one
community, no overlaps, no omissions when nodes are distinct); the empty graph
yields an empty partition without error; a graph with nodes but no edges
yields every node as its own singleton community. -/
theorem detectar_comunidades_partition (g : DiGraph) :
    List.Perm (detectar_comunidades g).flatten g.nodes ∧
    (g.nodes.Nodup → (detectar_comunidades g).flatten.Nodup) ∧
    (g.nodes = [] → detectar_comunidades g = []) ∧
    (g.edges = [] → detectar_comunidades g = g.nodes.map (fun n => [n])) := by
  have hperm : List.Perm (detectar_comunidades g).flatten g.nodes := by
    unfold detectar_comunidades
    by_cases h0 : g.nodes.isEmpty
    · rw [if_pos h0]
      rw [List.isEmpty_iff] at h0
      rw [h0]
      exact List.Perm.refl _
    · rw [if_neg h0]
      refine ((List.mergeSort_perm _ _).flatten).trans ?_
      unfold greedy_modularity_communities
      refine (cnmLoop_flatten_perm g _ _).trans ?_
      rw [flatten_singletons]
  refine ⟨hperm, ?_, ?_, ?_⟩
  · intro hnd
    exact hperm.nodup_iff.mpr hnd
  · intro h
    unfold detectar_comunidades
    rw [if_pos (by simp [h])]
  · intro hedges
    unfold detectar_comunidades
    by_cases h0 : g.nodes.isEmpty
    · rw [if_pos h0]
      rw [List.isEmpty_iff] at h0
      rw [h0]
      rfl
    · rw [if_neg h0]
      have hnc : ∀ cs, mergeCandidates g cs = [] := by
        intro cs
        unfold mergeCandidates
        apply List.filter_eq_nil_iff.mpr
        intro c _
        simp [hasUndirEdge, hedges]
      have hloop : ∀ (fuel : Nat) (cs : List (List String)), cnmLoop g fuel cs = cs := by
        intro fuel cs
        cases fuel with
        | zero => rfl
        | succ n => simp [cnmLoop, hnc]
      unfold greedy_modularity_communities
      rw [hloop]
      apply List.mergeSort_of_sorted
      rw [List.pairwise_map]
      exact pairwise_of_all _ (fun a b => by simp) g.nodes

theorem detectar_comunidades_partition_witness :
    List.Perm (detectar_comunidades ⟨["A", "B"], []⟩).flatten ["A", "B"] ∧
    (detectar_comunidades ⟨["A", "B"], []⟩).flatten.Nodup ∧
    detectar_comunidades ⟨["A", "B"], []⟩ = [["A"], ["B"]] ∧
    detectar_comunidades ⟨[], []⟩ = [] := by
  have h1 := detectar_comunidades_partition ⟨["A", "B"], []⟩
  have h2 := detectar_comunidades_partition ⟨[], []⟩
  exact ⟨h1.1, h1.2.1 (by decide), h1.2.2.2 rfl, h2.2.2.1 rfl⟩

end ProjetoGrafos
